import Mathlib

/-!
Verification model of the T5-VAE training code (t5_vae.py).

Python strings are modelled as lists of characters (`List Char`), and the
Python string primitives used by the code (`str.split` on a one-character
separator, `str.strip`, `int(...)`, `str(int)`) are translated directly below.
`int(...)` is modelled for an optional leading minus sign followed by decimal
digits; the code only ever parses such strings (checkpoint step suffixes and
the numeric field of WT tokens).  Failures that Python raises as exceptions
(assertion errors, KeyError, ValueError, IndexError, ZeroDivisionError,
min() of an empty set) are modelled as `Option.none`.

Real-valued tensor computations are modelled over `ℝ`, with a tensor of shape
(a, b, c) as a function `Fin a → Fin b → Fin c → ℝ`.
-/

namespace T5VAE

/-- Python `s.split(c)` for a single-character separator `c`: split at every
occurrence, keeping empty pieces, with `[[]]` for the empty string. -/
def splitOnChar (c : Char) : List Char → List (List Char)
  | [] => [[]]
  | a :: rest =>
    let r := splitOnChar c rest
    if a = c then [] :: r
    else
      match r with
      | h :: t => (a :: h) :: t
      | [] => [[a]]

/-- Python `s.strip()`: remove leading and trailing whitespace. -/
def stripChars (l : List Char) : List Char :=
  ((l.dropWhile Char.isWhitespace).reverse.dropWhile Char.isWhitespace).reverse

/-- Python `int(s)` restricted to nonempty all-digit strings (the shape the
code actually parses); other strings fail (`ValueError` → `none`). -/
def parseNat (l : List Char) : Option ℕ :=
  if l ≠ [] ∧ l.all Char.isDigit then
    some (l.foldl (fun n c => 10 * n + (c.toNat - 48)) 0)
  else none

/-- Python `int(s)` allowing an optional leading minus sign. -/
def parseInt (l : List Char) : Option ℤ :=
  match l with
  | [] => none
  | c :: rest =>
    if c = ('-') then (parseNat rest).map (fun n => -(n : ℤ))
    else (parseNat l).map (fun n => (n : ℤ))

/-- Python `str(i)` for an integer, as a list of characters. -/
def intToChars (v : ℤ) : List Char :=
  if v < 0 then ('-') :: Nat.toDigits 10 v.natAbs else Nat.toDigits 10 v.natAbs

/-! ## NesT5Tokenizer -/

/-- The reserved pad token, id 0. -/
def padToken : List Char := "<pad>".data

/-- The reserved end-of-sequence token, id 1. -/
def eosToken : List Char := "</s>".data

/-- The characters of the wait-token prefix used by `"WT_\x7b\x7d".format(closest)`. -/
def wtUnderscore : List Char := "WT_".data

/-- Vocabulary token list built by `NesT5Tokenizer.__init__` from the raw file
content: split on newlines, drop empty lines, strip each remaining line, and
de-duplicate (`list(set(...))`; Python's set iteration order is unspecified, so
the model fixes one order and the theorems use only order-independent facts). -/
def vocabTokens (content : List Char) : List (List Char) :=
  ((((splitOnChar ('\n') content).filter (fun t => t ≠ [])).map stripChars)).dedup

/-- The `index2vocab` list: reserved `<pad>`, `</s>` prepended to the file's
tokens. -/
def index2vocabOf (content : List Char) : List (List Char) :=
  padToken :: eosToken :: vocabTokens content

/-- Accumulator loop for the dict comprehension
`\x7bword: i for i, word in enumerate(self.index2vocab)\x7d`: later entries
overwrite earlier ones. -/
def vocab2indexGo (w : List Char) : List (List Char) → ℕ → Option ℕ → Option ℕ
  | [], _, acc => acc
  | a :: rest, i, acc => vocab2indexGo w rest (i + 1) (if a = w then some i else acc)

/-- Lookup in the `vocab2index` dict: the last index at which `w` occurs. -/
def vocab2index (l : List (List Char)) (w : List Char) : Option ℕ :=
  vocab2indexGo w l 0 none

/-- The numeric field of a WT token: `int(word.split("_")[1])`. -/
def wtFieldValue (w : List Char) : Option ℤ :=
  match (splitOnChar ('_') w)[1]? with
  | some s => parseInt s
  | none => none

/-- Guarded parse performed on a vocabulary miss: `assert word[:2] == "WT"`
then `int(word.split("_")[1])`; `none` models the fatal assert/parse failure. -/
def paramValue (w : List Char) : Option ℤ :=
  if w.take 2 = "WT".data then wtFieldValue w else none

/-- One step of building `self.wait_amts`: words whose first two characters
are `WT` contribute their parsed numeric field (set insertion modelled as
first-insertion order); an unparseable field aborts `__init__`. -/
def addWaitAmt (acc : List ℤ) (w : List Char) : Option (List ℤ) :=
  if w.take 2 = "WT".data then
    (wtFieldValue w).map (fun v => if v ∈ acc then acc else acc ++ [v])
  else some acc

/-- The `wait_amts` set built from `index2vocab`, as a duplicate-free list. -/
def waitAmtsOpt (l : List (List Char)) : Option (List ℤ) :=
  l.foldlM addWaitAmt []

/-- Loop of Python `min(wait_amts, key=lambda x: abs(x - wait_amt))`: keep the
earliest element whose key is minimal. -/
def argminAbsGo (v : ℤ) : ℤ → List ℤ → ℤ
  | best, [] => best
  | best, y :: ys => argminAbsGo v (if |y - v| < |best - v| then y else best) ys

/-- Python `min(s, key=lambda x: abs(x - v))`; `none` for the empty set
(`ValueError`). -/
def argminAbs (v : ℤ) : List ℤ → Option ℤ
  | [] => none
  | x :: xs => some (argminAbsGo v x xs)

/-- NesT5Tokenizer.get_index: exact dict hit, else assert the `WT` prefix,
parse the numeric field, pick the nearest registered wait amount and look up
the reconstructed token `"WT_" + str(closest)`. -/
def get_index (l : List (List Char)) (wa : List ℤ) (w : List Char) : Option ℕ :=
  match vocab2index l w with
  | some i => some i
  | none =>
    match paramValue w with
    | some v =>
      match argminAbs v wa with
      | some b => vocab2index l (wtUnderscore ++ intToChars b)
      | none => none
    | none => none

/-- List-comprehension loop of NesT5Tokenizer.tokenize: look up every word, a
failed lookup aborting the whole call. -/
def lookupAll (l : List (List Char)) (wa : List ℤ) : List (List Char) → Option (List ℕ)
  | [] => some []
  | w :: ws =>
    match get_index l wa w, lookupAll l wa ws with
    | some i, some r => some (i :: r)
    | _, _ => none

/-- NesT5Tokenizer.tokenize: split the text on single spaces and look up each
word in order. -/
def tokenize (l : List (List Char)) (wa : List ℤ) (txt : List Char) : Option (List ℕ) :=
  lookupAll l wa (splitOnChar (' ') txt)

/-! ## Trainer gradient-accumulation loop (T5_VAE_Trainer.train, inner loop) -/

/-- The optimizer-step condition of the training loop:
`(step + 1) % accum == 0 or (len <= accum and step + 1 == len)`. -/
def optStepCondition (accum len s : ℕ) : Bool :=
  ((s + 1) % accum == 0) || (decide (len ≤ accum) && ((s + 1) == len))

/-- Run the micro-steps of one epoch over the given step indices.  The state
is the number of backward passes accumulated since the last `zero_grad`; the
returned list records, for each optimizer step taken, how many backward passes
had been accumulated when it fired. -/
def trainSteps (accum len : ℕ) : List ℕ → ℕ → List ℕ × ℕ
  | [], p => ([], p)
  | s :: rest, p =>
    let p1 := p + 1
    if optStepCondition accum len s then
      let r := trainSteps accum len rest 0
      (p1 :: r.1, r.2)
    else trainSteps accum len rest p1

/-- One epoch: micro-steps 0, …, len−1 starting from `p` pending gradients. -/
def trainEpoch (accum len p : ℕ) : List ℕ × ℕ :=
  trainSteps accum len (List.range len) p

/-- Run `e` epochs from a fresh `model.zero_grad()`; pending gradients carry
over from one epoch to the next exactly as in the code (no `zero_grad` at an
epoch boundary). -/
def trainEpochs (accum len : ℕ) : ℕ → List ℕ × ℕ
  | 0 => ([], 0)
  | e + 1 =>
    let prev := trainEpochs accum len e
    let cur := trainEpoch accum len prev.2
    (prev.1 ++ cur.1, cur.2)

/-! ## Checkpoint resumption (T5_VAE_Trainer.train, lines 517–533, 548–551) -/

/-- Python `int(model_path.split("-")[-1].split("/")[0])`, `none` on parse
failure (the caught ValueError). -/
def parseCheckpointStep (path : List Char) : Option ℕ :=
  match (splitOnChar ('-') path).getLast? with
  | some last =>
    match (splitOnChar ('/') last)[0]? with
    | some comp => parseNat comp
    | none => none
  | none => none

/-- The resumption state computed by `train`: global step, epochs trained,
and batches to skip in the resumed epoch.  `none` models the uncaught
`ZeroDivisionError` when `len(dataloader) // accum == 0`; an unparseable path
restores the fresh state (0, 0, 0). -/
def resume (path : List Char) (len accum : ℕ) : Option (ℕ × ℕ × ℕ) :=
  match parseCheckpointStep path with
  | some n =>
    if len / accum = 0 then none
    else some (n, n / (len / accum), n * accum % len)
  | none => some (0, 0, 0)

/-- The resumed epoch's skip loop: while the skip counter is positive,
decrement it and `continue`; afterwards train on each batch.  Returns the
indices of batches actually trained on. -/
def resumedEpochTrainedSteps : ℕ → ℕ → ℕ → List ℕ
  | _, 0, _ => []
  | s, r + 1, skip =>
    if 0 < skip then resumedEpochTrainedSteps (s + 1) r (skip - 1)
    else s :: resumedEpochTrainedSteps (s + 1) r skip

/-! ## Tensor shape semantics (latent encoder / decoder round trip) -/

/-- Shape action of `nn.Linear(inF, outF)`: the last dimension must equal
`inF` and becomes `outF`. -/
def linearShape (inF outF : ℕ) : List ℕ → Option (List ℕ)
  | [] => none
  | [d] => if d = inF then some [outF] else none
  | d :: rest => (linearShape inF outF rest).map (fun r => d :: r)

/-- Shape action of `x.view(b, -1)`: the inferred dimension is total/b. -/
def viewFlat (b : ℕ) (sh : List ℕ) : Option (List ℕ) :=
  let total := sh.prod
  if 0 < b ∧ 0 < total ∧ total % b = 0 then some [b, total / b] else none

/-- Shape action of `x.view(b, -1, k)`. -/
def viewSplit (b k : ℕ) (sh : List ℕ) : Option (List ℕ) :=
  let total := sh.prod
  if 0 < b ∧ 0 < k ∧ 0 < total ∧ total % (b * k) = 0 then
    some [b, total / (b * k), k]
  else none

/-- Modelled from the spec: the external transformers `T5LayerFF` block (the
decoder's dropout-disabled feed-forward/layer-norm stage) acts on the last
dimension, which must equal the configured `d_model`, and preserves the
tensor's shape. -/
def t5LayerFFShape (dModel : ℕ) : List ℕ → Option (List ℕ)
  | [] => none
  | [d] => if d = dModel then some [d] else none
  | d :: rest => (t5LayerFFShape dModel rest).map (fun r => d :: r)

/-- Shape behaviour of LatentEncoderLargeTanh_1kLatent.forward:
shrink_tokens (dim_m → 100), view(batch, -1), shrink_sequence
(100 · set_input_size → latent_size), tanh (shape preserving). -/
def latentEncoderShape (dim_m set_input_size latent_size : ℕ) (sh : List ℕ) :
    Option (List ℕ) := do
  let b ← sh[0]?
  let sh1 ← linearShape dim_m 100 sh
  let sh2 ← viewFlat b sh1
  linearShape (100 * set_input_size) latent_size sh2

/-- Shape behaviour of LatentDecoderLargeT5NormFF.forward: decode_latent
(latent_size → 10 · set_input_size), grow_sequence (→ 100 · set_input_size),
view(batch, -1, 100), grow_tokens (100 → dim_m), then the T5 norm block. -/
def latentDecoderShape (dim_m set_input_size latent_size : ℕ) (sh : List ℕ) :
    Option (List ℕ) := do
  let b ← sh[0]?
  let sh1 ← linearShape latent_size (10 * set_input_size) sh
  let sh2 ← linearShape (10 * set_input_size) (100 * set_input_size) sh1
  let sh3 ← viewSplit b 100 sh2
  let sh4 ← linearShape 100 dim_m sh3
  t5LayerFFShape dim_m sh4

/-! ## Real-valued models -/

noncomputable section

/-- Python `torch.sigmoid`. -/
def torch_sigmoid (x : ℝ) : ℝ := 1 / (1 + Real.exp (-x))

/-- T5_VAE_Trainer._regulariser_loss_weight_schedule: a fixed constant when
`reg_constant_weight` is configured, otherwise
`sigmoid(global_step * reg_schedule_k - reg_schedule_b)`. -/
def regulariser_loss_weight_schedule (reg_constant_weight : Option ℝ)
    (reg_schedule_k reg_schedule_b : ℝ) (global_step : ℕ) : ℝ :=
  match reg_constant_weight with
  | some c => c
  | none => torch_sigmoid (global_step * reg_schedule_k - reg_schedule_b)

/-- Value of `nn.Linear`: `W v + bias` on the last dimension. -/
def linearForward {inF outF : ℕ} (W : Fin outF → Fin inF → ℝ)
    (bias : Fin outF → ℝ) (v : Fin inF → ℝ) : Fin outF → ℝ :=
  fun o => (∑ i, W o i * v i) + bias o

/-- Weights of LatentEncoderLargeTanh_1kLatent: `shrink_tokens = Linear(dim_m,
100)` and `shrink_sequence = Linear(100 * set_input_size, latent_size)`. -/
structure LatentEncoderLargeTanh_1kLatent (dim_m set_input_size latent_size : ℕ) where
  shrink_tokens_weight : Fin 100 → Fin dim_m → ℝ
  shrink_tokens_bias : Fin 100 → ℝ
  shrink_sequence_weight : Fin latent_size → Fin (set_input_size * 100) → ℝ
  shrink_sequence_bias : Fin latent_size → ℝ

/-- Row-major flattening performed by `encoding.view(batch_size, -1)` on a
(set_input_size, 100) slice. -/
def flattenSeq {s : ℕ} (x : Fin s → Fin 100 → ℝ) : Fin (s * 100) → ℝ :=
  fun j =>
    x ⟨j.1 / 100, (Nat.div_lt_iff_lt_mul (by norm_num)).mpr j.2⟩
      ⟨j.1 % 100, Nat.mod_lt _ (by norm_num)⟩

/-- LatentEncoderLargeTanh_1kLatent.forward: shrink each token's encoding to
100 dims, flatten, shrink the sequence to the latent size, then tanh. -/
def LatentEncoderLargeTanh_1kLatent.forward {dim_m s nl bsz : ℕ}
    (m : LatentEncoderLargeTanh_1kLatent dim_m s nl)
    (encoding : Fin bsz → Fin s → Fin dim_m → ℝ) : Fin bsz → Fin nl → ℝ :=
  fun bi o =>
    Real.tanh
      (linearForward m.shrink_sequence_weight m.shrink_sequence_bias
        (flattenSeq (fun si =>
          linearForward m.shrink_tokens_weight m.shrink_tokens_bias (encoding bi si))) o)

/-- FullSeqAE._compute_kernel: pairwise kernel matrix
`exp(-mean((x_i - y_j)^2) / dim)` (the inner `torch.mean` over the latent
dimension already divides by `dim`, and the code divides by `dim` again). -/
def compute_kernel (n m d : ℕ) (x : Fin n → Fin d → ℝ) (y : Fin m → Fin d → ℝ) :
    Fin n → Fin m → ℝ :=
  fun i j => Real.exp (-((∑ k, (x i k - y j k) ^ 2) / d) / d)

/-- Python `torch.mean` of an n × m matrix. -/
def tensor_mean {n m : ℕ} (t : Fin n → Fin m → ℝ) : ℝ :=
  (∑ i, ∑ j, t i j) / (n * m)

/-- FullSeqAE._compute_mmd:
`mean(k(x,x)) + mean(k(y,y)) - 2 * mean(k(x,y))`. -/
def compute_mmd (n m d : ℕ) (x : Fin n → Fin d → ℝ) (y : Fin m → Fin d → ℝ) : ℝ :=
  tensor_mean (compute_kernel n n d x x) + tensor_mean (compute_kernel m m d y y)
    - 2 * tensor_mean (compute_kernel n m d x y)

/-- Python `torch.nn.MSELoss(reduction="mean")` on (bsz, s, dm) tensors. -/
def mse_loss {bsz s dm : ℕ} (a b : Fin bsz → Fin s → Fin dm → ℝ) : ℝ :=
  (∑ i, ∑ j, ∑ k, (a i j k - b i j k) ^ 2) / (bsz * s * dm)

/-- FullSeqAE._regularliser_loss with the standard-normal reference draw
`torch.randn(latent.size())` made explicit as the `true_samples` argument:
`loss = 0; loss += mmd(true_samples, latent)`. -/
def regularliser_loss {bsz nl : ℕ} (true_samples latent : Fin bsz → Fin nl → ℝ) : ℝ :=
  0 + compute_mmd bsz bsz nl true_samples latent

/-- Result of FullSeqAE.forward, which returns the latent alone, the
reconstructed encoding alone, or the (recon_loss, reg_loss, recon_encoding)
triple depending on the two boolean flags. -/
inductive AEResult (bsz s dm nl : ℕ) where
  | latentOnly (latent : Fin bsz → Fin nl → ℝ)
  | encodingOnly (encoding : Fin bsz → Fin s → Fin dm → ℝ)
  | full (recon_loss reg_loss : ℝ) (recon_encoding : Fin bsz → Fin s → Fin dm → ℝ)

/-- FullSeqAE.forward.  The encoder and decoder submodules are the
deterministic functions passed to the constructor; the only random draw in
the source, `torch.randn` inside `_regularliser_loss`, is surfaced as the
explicit `noise` argument. -/
def fullSeqAE_forward {bsz s dm nl : ℕ}
    (encoder : (Fin bsz → Fin s → Fin dm → ℝ) → (Fin bsz → Fin nl → ℝ))
    (decoder : (Fin bsz → Fin nl → ℝ) → (Fin bsz → Fin s → Fin dm → ℝ))
    (input_encoding : Fin bsz → Fin s → Fin dm → ℝ)
    (noise : Fin bsz → Fin nl → ℝ)
    (just_get_latent just_get_encoding : Bool) : AEResult bsz s dm nl :=
  let latent := encoder input_encoding
  let recon_encoding := decoder latent
  if just_get_latent then AEResult.latentOnly latent
  else if just_get_encoding then AEResult.encodingOnly recon_encoding
  else
    AEResult.full (mse_loss input_encoding recon_encoding)
      (regularliser_loss noise latent) recon_encoding

/-- Reconstruction-loss component of a full-mode result. -/
def AEResult.reconLossOf {bsz s dm nl : ℕ} : AEResult bsz s dm nl → Option ℝ
  | .full rl _ _ => some rl
  | _ => none

/-- Reconstructed-encoding component of a full-mode result. -/
def AEResult.reconEncodingOf {bsz s dm nl : ℕ} :
    AEResult bsz s dm nl → Option (Fin bsz → Fin s → Fin dm → ℝ)
  | .full _ _ re => some re
  | _ => none

/-- A concrete latent encoder (hidden dim 101, sequence length 1, latent size
1) with all-zero weights. -/
def sampleEncoder : LatentEncoderLargeTanh_1kLatent 101 1 1 :=
  ⟨fun _ _ => 0, fun _ => 0, fun _ _ => 0, fun _ => 0⟩

/-- A concrete all-zero input encoding of shape (1, 1, 101). -/
def sampleEncoding : Fin 1 → Fin 1 → Fin 101 → ℝ := fun _ _ _ => 0

end

/-! ## Concrete sample inputs used by witnesses and counterexamples -/

/-- A sample vocabulary file content: eleven distinct tokens, two of them
wait-amount tokens with buckets 10 and 20. -/
def sampleContent : List Char := "a\nb\nc\nd\ne\nf\ng\nh\ni\nWT_10\nWT_20".data

/-- The tokenizer's index2vocab built from `sampleContent`. -/
def sampleVocab : List (List Char) := index2vocabOf sampleContent

/-- A vocabulary file content whose last line consists of a single space: a
blank (whitespace-only) line. -/
def blankLineContent : List Char := "a\nb\nc\nd\ne\nf\ng\nh\ni\nj\nk\n ".data

/-- Vocabulary entries as the claim describes them: the two reserved tokens
followed by the distinct trimmed non-empty lines, duplicate and blank lines
removed (trimming before blank-filtering). -/
def claimedVocabEntries (content : List Char) : List (List Char) :=
  padToken :: eosToken ::
    (((splitOnChar ('\n') content).map stripChars).filter (fun t => t ≠ [])).dedup

/-- Parameterized-token shape as the claim describes it: exactly
`WT_<integer>`. -/
def claimedParamShape (w : List Char) : Bool :=
  (w.take 3 == "WT_".data) && (parseInt (w.drop 3)).isSome

/-! ## Helper lemmas -/

theorem succ_mod_shift (s N : ℕ) : (s + 1) % N = (s % N + 1) % N := by
  conv_lhs => rw [← Nat.div_add_mod s N, Nat.add_assoc, Nat.mul_add_mod]

theorem vocab2indexGo_of_not_mem (w : List Char) (l : List (List Char))
    (k : ℕ) (acc : Option ℕ) (h : w ∉ l) : vocab2indexGo w l k acc = acc := by
  induction l generalizing k acc with
  | nil => rfl
  | cons a rest ih =>
    have ha : ¬(a = w) := fun hcontra => h (hcontra ▸ List.mem_cons_self a rest)
    have hr : w ∉ rest := fun hcontra => h (List.mem_cons_of_mem a hcontra)
    simp only [vocab2indexGo, if_neg ha]
    exact ih (k + 1) acc hr

theorem vocab2indexGo_of_mem (w : List Char) (l : List (List Char))
    (k : ℕ) (acc : Option ℕ) (h : w ∈ l) :
    ∃ j, l[j]? = some w ∧ vocab2indexGo w l k acc = some (k + j) := by
  induction l generalizing k acc with
  | nil => cases h
  | cons a rest ih =>
    by_cases hr : w ∈ rest
    · obtain ⟨j, hj1, hj2⟩ := ih (k + 1) (if a = w then some k else acc) hr
      refine ⟨j + 1, ?_, ?_⟩
      · simpa using hj1
      · simp only [vocab2indexGo, hj2]
        congr 1
        omega
    · have ha : a = w := by
        rcases List.mem_cons.mp h with h1 | h2
        · exact h1.symm
        · exact absurd h2 hr
      refine ⟨0, by simp [ha], ?_⟩
      simp only [vocab2indexGo, if_pos ha]
      rw [vocab2indexGo_of_not_mem w rest (k + 1) (some k) hr]
      simp

theorem vocab2index_of_mem (l : List (List Char)) (w : List Char) (h : w ∈ l) :
    ∃ j, vocab2index l w = some j ∧ l[j]? = some w := by
  obtain ⟨j, hj1, hj2⟩ := vocab2indexGo_of_mem w l 0 none h
  exact ⟨j, by simpa using hj2, hj1⟩

theorem vocab2index_of_not_mem (l : List (List Char)) (w : List Char) (h : w ∉ l) :
    vocab2index l w = none :=
  vocab2indexGo_of_not_mem w l 0 none h

theorem vocab2index_eq_some (l : List (List Char)) (w : List Char) (i : ℕ)
    (h : vocab2index l w = some i) : l[i]? = some w := by
  by_cases hm : w ∈ l
  · obtain ⟨j, hj1, hj2⟩ := vocab2index_of_mem l w hm
    rw [h] at hj1
    cases hj1
    exact hj2
  · rw [vocab2index_of_not_mem l w hm] at h
    cases h

theorem vocab2index_lt_length (l : List (List Char)) (w : List Char) (i : ℕ)
    (h : vocab2index l w = some i) : i < l.length :=
  (List.getElem?_eq_some.mp (vocab2index_eq_some l w i h)).1

theorem vocab2index_of_nodup (l : List (List Char)) (i : ℕ) (hi : i < l.length)
    (hn : l.Nodup) : vocab2index l (l.get ⟨i, hi⟩) = some i := by
  have hmem : l.get ⟨i, hi⟩ ∈ l := List.get_mem l i hi
  obtain ⟨j, hj1, hj2⟩ := vocab2index_of_mem l (l.get ⟨i, hi⟩) hmem
  have hii : l[i]? = some (l.get ⟨i, hi⟩) := by
    simp [List.getElem?_eq_getElem hi]
  have := List.getElem?_inj hi hn (hii.trans hj2.symm)
  rw [hj1, ← this]

theorem argminAbsGo_spec (v : ℤ) (ys : List ℤ) :
    ∀ best : ℤ,
      (argminAbsGo v best ys = best ∨ argminAbsGo v best ys ∈ ys)
      ∧ |argminAbsGo v best ys - v| ≤ |best - v|
      ∧ ∀ y ∈ ys, |argminAbsGo v best ys - v| ≤ |y - v| := by
  induction ys with
  | nil => exact fun best => ⟨Or.inl rfl, le_refl _, by simp⟩
  | cons y ys ih =>
    intro best
    simp only [argminAbsGo]
    by_cases hc : |y - v| < |best - v|
    · rw [if_pos hc]
      obtain ⟨h1, h2, h3⟩ := ih y
      refine ⟨?_, ?_, ?_⟩
      · rcases h1 with h | h
        · exact Or.inr (by rw [h]; exact List.mem_cons_self y ys)
        · exact Or.inr (List.mem_cons_of_mem y h)
      · exact le_trans h2 (le_of_lt hc)
      · intro z hz
        rcases List.mem_cons.mp hz with h | h
        · exact h ▸ h2
        · exact h3 z h
    · rw [if_neg hc]
      obtain ⟨h1, h2, h3⟩ := ih best
      refine ⟨?_, h2, ?_⟩
      · rcases h1 with h | h
        · exact Or.inl h
        · exact Or.inr (List.mem_cons_of_mem y h)
      · intro z hz
        rcases List.mem_cons.mp hz with h | h
        · exact h ▸ le_trans h2 (not_lt.mp hc)
        · exact h3 z h

theorem argminAbs_spec (v : ℤ) (l : List ℤ) (b : ℤ) (h : argminAbs v l = some b) :
    b ∈ l ∧ ∀ y ∈ l, |b - v| ≤ |y - v| := by
  match l with
  | [] => cases h
  | x :: xs =>
    simp only [argminAbs, Option.some.injEq] at h
    obtain ⟨h1, h2, h3⟩ := argminAbsGo_spec v xs x
    subst h
    refine ⟨?_, ?_⟩
    · rcases h1 with h | h
      · exact (by rw [h]; exact List.mem_cons_self x xs)
      · exact List.mem_cons_of_mem x h
    · intro y hy
      rcases List.mem_cons.mp hy with h | h
      · exact h ▸ h2
      · exact h3 y h

theorem optStepCondition_iff (accum len s : ℕ) :
    optStepCondition accum len s = true ↔
      ((s + 1) % accum = 0 ∨ (len ≤ accum ∧ s + 1 = len)) := by
  simp [optStepCondition, Bool.or_eq_true, Bool.and_eq_true, beq_iff_eq,
    decide_eq_true_iff, and_comm]

theorem trainSteps_spec (accum len : ℕ) (hN : 0 < accum) (hdvd : accum ∣ len) :
    ∀ (n s p : ℕ), p = s % accum →
      (∀ r ∈ (trainSteps accum len (List.range' s n) p).1, r = accum)
      ∧ (trainSteps accum len (List.range' s n) p).2 = (s + n) % accum := by
  intro n
  induction n with
  | zero =>
    intro s p hp
    simp [trainSteps, hp]
  | succ n ih =>
    intro s p hp
    rw [List.range'_succ s n 1]
    by_cases hc : optStepCondition accum len s = true
    · have hz : (s + 1) % accum = 0 := by
        rcases (optStepCondition_iff accum len s).mp hc with h | ⟨h1, h2⟩
        · exact h
        · have hlen0 : 0 < len := by omega
          have hge : accum ≤ len := Nat.le_of_dvd hlen0 hdvd
          have hlen : len = accum := le_antisymm h1 hge
          rw [h2, hlen]
          exact Nat.mod_self accum
      have hp1 : p + 1 = accum := by
        have hm : s % accum < accum := Nat.mod_lt _ hN
        have := succ_mod_shift s accum
        rw [hz] at this
        have hdvd1 : accum ∣ s % accum + 1 := by
          rcases Nat.eq_zero_of_dvd_of_lt (Nat.dvd_of_mod_eq_zero this.symm) with _
          exact Nat.dvd_of_mod_eq_zero this.symm
        have hle : s % accum + 1 ≤ accum := by omega
        have hpos : 0 < s % accum + 1 := by omega
        have : s % accum + 1 = accum := Nat.eq_of_dvd_of_lt_two_mul (by omega) hdvd1 (by omega)
        omega
      obtain ⟨ih1, ih2⟩ := ih (s + 1) 0 (by omega)
      simp only [trainSteps, hc, if_true]
      constructor
      · intro r hr
        rcases List.mem_cons.mp hr with h | h
        · omega
        · exact ih1 r h
      · rw [ih2]
        congr 1
        omega
    · have hnz : (s + 1) % accum ≠ 0 := by
        intro h
        exact hc ((optStepCondition_iff accum len s).mpr (Or.inl h))
      have hp1 : p + 1 = (s + 1) % accum := by
        have hm : s % accum < accum := Nat.mod_lt _ hN
        have hsh := succ_mod_shift s accum
        have hlt : s % accum + 1 < accum ∨ s % accum + 1 = accum := by omega
        rcases hlt with h | h
        · rw [hp, hsh, Nat.mod_eq_of_lt h]
        · exfalso
          apply hnz
          rw [hsh, h, Nat.mod_self]
      obtain ⟨ih1, ih2⟩ := ih (s + 1) (p + 1) hp1
      simp only [trainSteps, hc, if_false]
      rw [Bool.not_eq_true] at hc
      simp only [hc, Bool.false_eq_true, if_false]
      refine ⟨ih1, ?_⟩
      rw [ih2]
      congr 1
      omega

theorem trainEpochs_spec (accum len : ℕ) (hN : 0 < accum) (hdvd : accum ∣ len) :
    ∀ e : ℕ, (∀ r ∈ (trainEpochs accum len e).1, r = accum)
      ∧ (trainEpochs accum len e).2 = 0 := by
  intro e
  induction e with
  | zero => simp [trainEpochs]
  | succ e ih =>
    obtain ⟨ih1, ih2⟩ := ih
    obtain ⟨h1, h2⟩ :=
      trainSteps_spec accum len hN hdvd len 0 0 (by simp)
    have hlmod : len % accum = 0 := Nat.mod_eq_zero_of_dvd hdvd
    constructor
    · intro r hr
      simp only [trainEpochs] at hr
      rcases List.mem_append.mp hr with h | h
      · exact ih1 r h
      · rw [ih2] at h
        unfold trainEpoch at h
        rw [List.range_eq_range' len] at h
        exact h1 r h
    · simp only [trainEpochs]
      rw [ih2]
      unfold trainEpoch
      rw [List.range_eq_range' len, h2]
      simpa using hlmod

theorem resumedEpochTrainedSteps_eq (r : ℕ) :
    ∀ s k : ℕ, resumedEpochTrainedSteps s r k = (List.range' s r).drop k := by
  induction r with
  | zero => intro s k; simp [resumedEpochTrainedSteps]
  | succ r ih =>
    intro s k
    rw [List.range'_succ s r 1]
    match k with
    | 0 =>
      simp only [resumedEpochTrainedSteps, Nat.lt_irrefl, if_false, List.drop_zero]
      rw [ih (s + 1) 0]
      simp
    | k + 1 =>
      simp only [resumedEpochTrainedSteps, Nat.succ_sub_one, List.drop_succ_cons]
      rw [if_pos (Nat.succ_pos k), ih (s + 1) k]

theorem real_tanh_lt_one (x : ℝ) : Real.tanh x < 1 := by
  rw [Real.tanh_eq_sinh_div_cosh]
  exact (div_lt_one (Real.cosh_pos x)).mpr (Real.sinh_lt_cosh x)

theorem neg_one_lt_real_tanh (x : ℝ) : -1 < Real.tanh x := by
  rw [Real.tanh_eq_sinh_div_cosh]
  rw [lt_div_iff₀ (Real.cosh_pos x)]
  have h := Real.sinh_lt_cosh (-x)
  simp only [Real.sinh_neg, Real.cosh_neg] at h
  linarith

theorem torch_sigmoid_monotone {x y : ℝ} (h : x ≤ y) :
    torch_sigmoid x ≤ torch_sigmoid y := by
  unfold torch_sigmoid
  have h1 : (0 : ℝ) < 1 + Real.exp (-y) := by positivity
  have h2 : 1 + Real.exp (-y) ≤ 1 + Real.exp (-x) := by
    have := Real.exp_le_exp.mpr (neg_le_neg h)
    linarith
  exact one_div_le_one_div_of_le h1 h2

/-! ## Claim theorems -/

/-- C1 counterexample: with accumulation 4 and dataloader length 6 (not a
multiple of 4), over two epochs the optimizer steps fire with 4 and then 6
accumulated backward passes — the leftover 2 micro-gradients at the end of
epoch 0 are never zeroed and leak into epoch 1's first optimizer step, so it
is false that every optimizer step is preceded by exactly N backward passes
across epoch boundaries. -/
theorem trainer_grad_accumulation_counterexample :
    (trainEpochs 4 6 2).1 = [4, 6]
    ∧ ¬(∀ r ∈ (trainEpochs 4 6 2).1, r = 4) := by decide

/-- C1 amended: an optimizer step occurs at micro-step s iff
`(s+1) % N = 0` or (`len ≤ N` and `s+1 = len`); and when the dataloader
length is a positive multiple of N, every optimizer step (in every epoch) is
preceded by exactly N accumulated backward passes.  (When len is not a
multiple of N the epoch-end leftover gradients carry into the next epoch, as
the counterexample shows.) -/
theorem trainer_grad_accumulation_amended (accum len epochs : ℕ)
    (hN : 0 < accum) (hdvd : accum ∣ len) :
    (∀ s, optStepCondition accum len s = true ↔
      ((s + 1) % accum = 0 ∨ (len ≤ accum ∧ s + 1 = len)))
    ∧ ∀ r ∈ (trainEpochs accum len epochs).1, r = accum :=
  ⟨fun s => optStepCondition_iff accum len s,
    (trainEpochs_spec accum len hN hdvd epochs).1⟩

/-- C1 witness: accumulation 4, dataloader length 8, two epochs. -/
theorem trainer_grad_accumulation_amended_witness :
    ((0 < 4 ∧ 4 ∣ 8)
      ∧ (∀ s, optStepCondition 4 8 s = true ↔
          ((s + 1) % 4 = 0 ∨ (8 ≤ 4 ∧ s + 1 = 8)))
      ∧ ∀ r ∈ (trainEpochs 4 8 2).1, r = 4) :=
  ⟨⟨by decide, by decide⟩,
    trainer_grad_accumulation_amended 4 8 2 (by decide) (by decide)⟩

/-- C2: the MMD of any batch of latent vectors against itself is exactly 0
over real arithmetic, for every batch size and latent dimension. -/
theorem compute_mmd_self_eq_zero (n d : ℕ) (x : Fin n → Fin d → ℝ) :
    compute_mmd n n d x x = 0 := by
  unfold compute_mmd
  ring

/-- C3 counterexample: the token `WTq_14` is not a vocabulary entry and is
not of the claimed well-formed shape `WT_<integer>`, yet `get_index` does not
fail: the code only checks the first two characters and the second
underscore-separated field, so the lookup succeeds and returns the id of
`WT_10`. -/
theorem get_index_claim_counterexample :
    vocab2index sampleVocab ("WTq_14".data) = none
    ∧ claimedParamShape ("WTq_14".data) = false
    ∧ waitAmtsOpt sampleVocab = some [10, 20]
    ∧ get_index sampleVocab [10, 20] ("WTq_14".data) = some 11
    ∧ sampleVocab[11]? = some ("WT_10".data) := by decide

/-- C3 amended: an exact vocabulary entry returns that entry's id; a
vocabulary miss whose first two characters are `WT` and whose second
underscore-separated field parses as an integer v resolves to the registered
bucket b minimizing the absolute distance to v, returning the id of the
reconstructed token `WT_<b>` (failing only if there are no registered
buckets, or that token is itself absent); any other vocabulary miss fails
fatally. -/
theorem get_index_amended (l : List (List Char)) (wa : List ℤ) (w : List Char) :
    (∀ i, vocab2index l w = some i → get_index l wa w = some i ∧ l[i]? = some w)
    ∧ (vocab2index l w = none → ∀ v, paramValue w = some v →
        ∀ b, argminAbs v wa = some b →
          get_index l wa w = vocab2index l (wtUnderscore ++ intToChars b)
          ∧ b ∈ wa ∧ ∀ y ∈ wa, |b - v| ≤ |y - v|)
    ∧ (vocab2index l w = none → paramValue w = none → get_index l wa w = none)
    ∧ (vocab2index l w = none → ∀ v, paramValue w = some v →
        argminAbs v wa = none → get_index l wa w = none) := by
  refine ⟨?_, ?_, ?_, ?_⟩
  · intro i hi
    refine ⟨?_, vocab2index_eq_some l w i hi⟩
    unfold get_index
    rw [hi]
  · intro hnone v hv b hb
    obtain ⟨hmem, hmin⟩ := argminAbs_spec v wa b hb
    refine ⟨?_, hmem, hmin⟩
    unfold get_index
    rw [hnone, hv]
    simp [hb]
  · intro hnone hv
    unfold get_index
    rw [hnone, hv]
  · intro hnone v hv hb
    unfold get_index
    rw [hnone, hv]
    simp [hb]

/-- C3 witness: looking up `WT_14` against buckets {10, 20} resolves to the
nearest bucket 10, i.e. to the id of `WT_10`. -/
theorem get_index_amended_witness :
    (vocab2index sampleVocab ("WT_14".data) = none
      ∧ paramValue ("WT_14".data) = some 14
      ∧ argminAbs 14 [10, 20] = some 10)
    ∧ (get_index sampleVocab [10, 20] ("WT_14".data)
        = vocab2index sampleVocab (wtUnderscore ++ intToChars 10)
      ∧ (10 : ℤ) ∈ [(10 : ℤ), 20]
      ∧ ∀ y ∈ [(10 : ℤ), 20], |(10 : ℤ) - 14| ≤ |y - 14|) :=
  ⟨⟨by decide, by decide, by decide⟩,
    (get_index_amended sampleVocab [10, 20] ("WT_14".data)).2.1 (by decide) 14
      (by decide) 10 (by decide)⟩

/-- C4: every component of the latent vector produced by the latent
encoder's forward pass lies strictly inside (-1, 1), for every input
encoding, every weight setting and every batch entry — the final step is the
bounded tanh squashing, and the (purely functional) forward pass draws no
randomness. -/
theorem latent_components_bounded (dim_m s nl bsz : ℕ) (hdm : 100 < dim_m)
    (m : LatentEncoderLargeTanh_1kLatent dim_m s nl)
    (encoding : Fin bsz → Fin s → Fin dim_m → ℝ) (bi : Fin bsz) (o : Fin nl) :
    -1 < m.forward encoding bi o ∧ m.forward encoding bi o < 1 :=
  ⟨neg_one_lt_real_tanh _, real_tanh_lt_one _⟩

/-- C4 witness: the all-zero encoder on the all-zero input at hidden
dimension 101. -/
theorem latent_components_bounded_witness :
    100 < 101
    ∧ (-1 < sampleEncoder.forward sampleEncoding 0 0
        ∧ sampleEncoder.forward sampleEncoding 0 0 < 1) :=
  ⟨by decide, latent_components_bounded 101 1 1 1 (by decide) sampleEncoder sampleEncoding 0 0⟩

/-- C5: round-trip shape invariance — for any batch size ≥ 1, sequence
length ≥ 1 and hidden dimension > 100, the encoder maps shape
(b, s, dim_m) to (b, latent) and the decoder maps (b, latent) back to
exactly (b, s, dim_m). -/
theorem latent_round_trip_shape (b s dim_m latent_size : ℕ)
    (hb : 0 < b) (hs : 0 < s) (hdm : 100 < dim_m) :
    latentEncoderShape dim_m s latent_size [b, s, dim_m] = some [b, latent_size]
    ∧ latentDecoderShape dim_m s latent_size [b, latent_size] = some [b, s, dim_m] := by
  have h1 : linearShape dim_m 100 [b, s, dim_m] = some [b, s, 100] := by
    simp [linearShape]
  have h2 : viewFlat b [b, s, 100] = some [b, s * 100] := by
    have hmod : b * (s * 100) % b = 0 := Nat.mul_mod_right b (s * 100)
    have hdivq : b * (s * 100) / b = s * 100 := Nat.mul_div_cancel_left (s * 100) hb
    simp only [viewFlat, List.prod_cons, List.prod_nil, mul_one]
    rw [if_pos ⟨hb, by positivity, hmod⟩, hdivq]
  have h3 : linearShape (100 * s) latent_size [b, s * 100] = some [b, latent_size] := by
    simp [linearShape, Nat.mul_comm]
  have d1 : linearShape latent_size (10 * s) [b, latent_size] = some [b, 10 * s] := by
    simp [linearShape]
  have d2 : linearShape (10 * s) (100 * s) [b, 10 * s] = some [b, 100 * s] := by
    simp [linearShape]
  have d3 : viewSplit b 100 [b, 100 * s] = some [b, s, 100] := by
    have he : b * (100 * s) = b * 100 * s := by ring
    have hmod : b * (100 * s) % (b * 100) = 0 := by
      rw [he]; exact Nat.mul_mod_right (b * 100) s
    have hdivq : b * (100 * s) / (b * 100) = s := by
      rw [he]; exact Nat.mul_div_cancel_left s (by positivity)
    simp only [viewSplit, List.prod_cons, List.prod_nil, mul_one]
    rw [if_pos ⟨hb, by norm_num, by positivity, hmod⟩, hdivq]
  have d4 : linearShape 100 dim_m [b, s, 100] = some [b, s, dim_m] := by
    simp [linearShape]
  have d5 : t5LayerFFShape dim_m [b, s, dim_m] = some [b, s, dim_m] := by
    simp [t5LayerFFShape]
  constructor
  · simp [latentEncoderShape, h1, h2, h3]
  · simp [latentDecoderShape, d1, d2, d3, d4, d5]

/-- C5 witness: batch 1, sequence length 2, hidden dimension 101, latent
size 5. -/
theorem latent_round_trip_shape_witness :
    (0 < 1 ∧ 0 < 2 ∧ 100 < 101)
    ∧ (latentEncoderShape 101 2 5 [1, 2, 101] = some [1, 5]
        ∧ latentDecoderShape 101 2 5 [1, 5] = some [1, 2, 101]) :=
  ⟨⟨by decide, by decide, by decide⟩,
    latent_round_trip_shape 1 2 101 5 (by decide) (by decide) (by decide)⟩

/-- C6: the regularization-weight schedule returns the configured constant at
every global step when one is set, and otherwise equals
`sigmoid(k * global_step - b)`, which is monotonically non-decreasing in the
global step for a non-negative schedule constant k (the configured default is
k = 0.0025 > 0). -/
theorem reg_weight_schedule_spec (k b : ℝ) (hk : 0 ≤ k) :
    (∀ (c : ℝ) (gs : ℕ), regulariser_loss_weight_schedule (some c) k b gs = c)
    ∧ (∀ gs : ℕ, regulariser_loss_weight_schedule none k b gs
        = torch_sigmoid (gs * k - b))
    ∧ (∀ gs gt : ℕ, gs ≤ gt →
        regulariser_loss_weight_schedule none k b gs
          ≤ regulariser_loss_weight_schedule none k b gt) := by
  refine ⟨fun c gs => rfl, fun gs => rfl, fun gs gt hle => ?_⟩
  unfold regulariser_loss_weight_schedule
  apply torch_sigmoid_monotone
  have hc : (gs : ℝ) ≤ (gt : ℝ) := Nat.cast_le.mpr hle
  have := mul_le_mul_of_nonneg_right hc hk
  linarith

/-- C6 witness: the schedule at the default constants k = 0.0025,
b = 6.25. -/
theorem reg_weight_schedule_spec_witness :
    (0 : ℝ) ≤ 1 / 400
    ∧ ((∀ (c : ℝ) (gs : ℕ),
          regulariser_loss_weight_schedule (some c) (1 / 400) (25 / 4) gs = c)
        ∧ (∀ gs : ℕ, regulariser_loss_weight_schedule none (1 / 400) (25 / 4) gs
            = torch_sigmoid (gs * (1 / 400) - 25 / 4))
        ∧ (∀ gs gt : ℕ, gs ≤ gt →
            regulariser_loss_weight_schedule none (1 / 400) (25 / 4) gs
              ≤ regulariser_loss_weight_schedule none (1 / 400) (25 / 4) gt)) :=
  ⟨by norm_num, reg_weight_schedule_spec (1 / 400) (25 / 4) (by norm_num)⟩

/-- C7: resuming from a checkpoint path whose trailing `-<n>` component
parses as n restores global_step = n, epochs_trained = n / (len / accum), and
a skip counter of n * accum % len; the resumed epoch's loop then skips
exactly that many batches from the start before training on any batch.  The
hypothesis 0 < len / accum is the code's implicit requirement (otherwise the
epoch computation raises ZeroDivisionError). -/
theorem checkpoint_resumption_spec (path : List Char) (n len accum : ℕ)
    (hp : parseCheckpointStep path = some n) (hdiv : 0 < len / accum) :
    resume path len accum = some (n, n / (len / accum), n * accum % len)
    ∧ resumedEpochTrainedSteps 0 len (n * accum % len)
        = (List.range len).drop (n * accum % len) := by
  constructor
  · unfold resume
    rw [hp]
    simp only []
    rw [if_neg (by omega)]
  · rw [resumedEpochTrainedSteps_eq len 0 (n * accum % len),
      List.range_eq_range' len]

/-- C7 witness: the spec's example — resuming from `output/checkpoint-1000`
with dataloader length 500 and accumulation 2 restores global step 1000
(epochs 1000 / 250 = 4) and skips 1000 * 2 % 500 = 0 batches. -/
theorem checkpoint_resumption_spec_witness :
    (parseCheckpointStep ("output/checkpoint-1000".data) = some 1000
      ∧ 0 < 500 / 2)
    ∧ (resume ("output/checkpoint-1000".data) 500 2
        = some (1000, 1000 / (500 / 2), 1000 * 2 % 500)
      ∧ resumedEpochTrainedSteps 0 500 (1000 * 2 % 500)
          = (List.range 500).drop (1000 * 2 % 500)) :=
  ⟨⟨by decide, by decide⟩,
    checkpoint_resumption_spec ("output/checkpoint-1000".data) 1000 500 2
      (by decide) (by decide)⟩

theorem lookupAll_exact (l : List (List Char)) (wa : List ℤ) :
    ∀ ws : List (List Char), (∀ w ∈ ws, w ∈ l) →
      ∃ ids, lookupAll l wa ws = some ids
        ∧ ids.map (fun i => l[i]?) = ws.map some := by
  intro ws
  induction ws with
  | nil => exact fun _ => ⟨[], rfl, by simp⟩
  | cons w ws ih =>
    intro h
    have hw : w ∈ l := h w (List.mem_cons_self w ws)
    obtain ⟨i, hi1, hi2⟩ := vocab2index_of_mem l w hw
    have hgi : get_index l wa w = some i := by
      unfold get_index
      rw [hi1]
    obtain ⟨ids, hids1, hids2⟩ := ih (fun x hx => h x (List.mem_cons_of_mem w hx))
    refine ⟨i :: ids, ?_, ?_⟩
    · simp only [lookupAll, hgi, hids1]
    · simp [hids2, hi2]

/-- C8: for every text whose space-separated words are all exact vocabulary
entries, tokenize succeeds and mapping the returned ids back through
index2vocab reproduces the original word sequence, in order. -/
theorem tokenize_round_trip (l : List (List Char)) (wa : List ℤ) (txt : List Char)
    (h : ∀ w ∈ splitOnChar (' ') txt, w ∈ l) :
    ∃ ids, tokenize l wa txt = some ids
      ∧ ids.map (fun i => l[i]?) = (splitOnChar (' ') txt).map some :=
  lookupAll_exact l wa (splitOnChar (' ') txt) h

/-- C8 witness: tokenizing `a b a` against the sample vocabulary. -/
theorem tokenize_round_trip_witness :
    (∀ w ∈ splitOnChar (' ') ("a b a".data), w ∈ sampleVocab)
    ∧ ∃ ids, tokenize sampleVocab [10, 20] ("a b a".data) = some ids
        ∧ ids.map (fun i => sampleVocab[i]?)
            = (splitOnChar (' ') ("a b a".data)).map some :=
  ⟨by decide, tokenize_round_trip sampleVocab [10, 20] ("a b a".data) (by decide)⟩

/-- C9 counterexample: a vocabulary file ending in a whitespace-only line
(here a single space) still has 11 distinct trimmed non-blank tokens, so the
claim's precondition holds; but the code filters empty lines before
trimming, so the whitespace-only line survives as the empty token and the
built vocabulary is not the reserved entries plus the distinct trimmed
non-empty lines. -/
theorem vocab_build_claim_counterexample :
    10 < (vocabTokens blankLineContent).length
    ∧ ([] : List Char) ∈ index2vocabOf blankLineContent
    ∧ ([] : List Char) ∉ claimedVocabEntries blankLineContent := by decide

/-- C9 amended: for a vocabulary file with more than 10 distinct tokens, the
built vocabulary is `<pad>` at id 0 and `</s>` at id 1 followed by exactly
the distinct stripped non-empty lines — where a line of only whitespace is
kept and stripped to the empty token, since the code drops empty lines
before stripping; ids are dense (every id returned by the token→index map is
in range and holds that token), and — provided no file token collides with a
reserved token — the mapping is bidirectional. -/
theorem vocab_build_amended (content : List Char)
    (h10 : 10 < (vocabTokens content).length)
    (hp : padToken ∉ vocabTokens content) (he : eosToken ∉ vocabTokens content) :
    ((index2vocabOf content)[0]? = some padToken
      ∧ (index2vocabOf content)[1]? = some eosToken)
    ∧ (∀ w, w ∈ index2vocabOf content ↔
        (w = padToken ∨ w = eosToken ∨
          ∃ t ∈ (splitOnChar ('\n') content).filter (fun x => x ≠ []),
            stripChars t = w))
    ∧ (∀ w i, vocab2index (index2vocabOf content) w = some i →
        i < (index2vocabOf content).length
          ∧ (index2vocabOf content)[i]? = some w)
    ∧ (∀ i (hi : i < (index2vocabOf content).length),
        vocab2index (index2vocabOf content)
          ((index2vocabOf content).get ⟨i, hi⟩) = some i) := by
  refine ⟨⟨by simp [index2vocabOf], by simp [index2vocabOf]⟩, ?_, ?_, ?_⟩
  · intro w
    simp [index2vocabOf, vocabTokens, List.mem_dedup]
  · intro w i hwi
    exact ⟨vocab2index_lt_length _ w i hwi, vocab2index_eq_some _ w i hwi⟩
  · have hnodup : (index2vocabOf content).Nodup := by
      unfold index2vocabOf
      refine List.nodup_cons.mpr ⟨?_, List.nodup_cons.mpr ⟨he, List.nodup_dedup _⟩⟩
      intro hmem
      rcases List.mem_cons.mp hmem with h | h
      · exact absurd h (by decide)
      · exact hp h
    intro i hi
    exact vocab2index_of_nodup (index2vocabOf content) i hi hnodup

set_option maxHeartbeats 1000000 in
/-- C9 witness: the sample vocabulary content with 11 distinct tokens. -/
theorem vocab_build_amended_witness :
    (10 < (vocabTokens sampleContent).length
      ∧ padToken ∉ vocabTokens sampleContent
      ∧ eosToken ∉ vocabTokens sampleContent)
    ∧ (((index2vocabOf sampleContent)[0]? = some padToken
        ∧ (index2vocabOf sampleContent)[1]? = some eosToken)
      ∧ (∀ w, w ∈ index2vocabOf sampleContent ↔
          (w = padToken ∨ w = eosToken ∨
            ∃ t ∈ (splitOnChar ('\n') sampleContent).filter (fun x => x ≠ []),
              stripChars t = w))
      ∧ (∀ w i, vocab2index (index2vocabOf sampleContent) w = some i →
          i < (index2vocabOf sampleContent).length
            ∧ (index2vocabOf sampleContent)[i]? = some w)
      ∧ (∀ i (hi : i < (index2vocabOf sampleContent).length),
          vocab2index (index2vocabOf sampleContent)
            ((index2vocabOf sampleContent).get ⟨i, hi⟩) = some i)) :=
  ⟨⟨by decide, by decide, by decide⟩,
    vocab_build_amended sampleContent (by decide) (by decide) (by decide)⟩

/-- C10: the latent-only and encoding-only modes of FullSeqAE.forward do not
depend on the random reference draw — two runs with different noise return
identical results — and in full mode the reconstruction loss and the
reconstructed encoding equal noise-free values of the input and weights
alone, so only the returned regularization loss depends on the random
sampling. -/
theorem ae_modes_noise_independent (bsz s dm nl : ℕ)
    (encoder : (Fin bsz → Fin s → Fin dm → ℝ) → (Fin bsz → Fin nl → ℝ))
    (decoder : (Fin bsz → Fin nl → ℝ) → (Fin bsz → Fin s → Fin dm → ℝ))
    (x : Fin bsz → Fin s → Fin dm → ℝ) (n1 n2 : Fin bsz → Fin nl → ℝ) :
    fullSeqAE_forward encoder decoder x n1 true false
      = fullSeqAE_forward encoder decoder x n2 true false
    ∧ fullSeqAE_forward encoder decoder x n1 false true
      = fullSeqAE_forward encoder decoder x n2 false true
    ∧ (∀ noise, (fullSeqAE_forward encoder decoder x noise false false).reconLossOf
        = some (mse_loss x (decoder (encoder x))))
    ∧ (∀ noise,
        (fullSeqAE_forward encoder decoder x noise false false).reconEncodingOf
          = some (decoder (encoder x))) := by
  have hl : ∀ noise : Fin bsz → Fin nl → ℝ,
      fullSeqAE_forward encoder decoder x noise true false
        = AEResult.latentOnly (encoder x) := fun _ => rfl
  have he : ∀ noise : Fin bsz → Fin nl → ℝ,
      fullSeqAE_forward encoder decoder x noise false true
        = AEResult.encodingOnly (decoder (encoder x)) := fun _ => rfl
  exact ⟨(hl n1).trans (hl n2).symm, (he n1).trans (he n2).symm,
    fun _ => rfl, fun _ => rfl⟩

end T5VAE
